import Mathlib

/-!
Shallow embedding of the go-bcr Bazel-registry client library and proofs
about its version-resolution, caching, file-registry and error-handling
behaviour.  Pure Go functions become Lean functions; the filesystem, the
HTTP transport and the JSON decoder are modelled as explicit oracles
passed to the client functions; Go `nil` receivers and `nil` errors become
`Option`.
-/

namespace BCR

/-- Bytes of a fetched resource body, one natural number per byte. -/
abbrev Bytes := List Nat

/-- Maintainer mirrors the Go struct in types.go (github_user_id is int64,
modelled as Int). -/
structure Maintainer where
  Name : String
  Email : String
  GitHub : String
  GitHubID : Int
deriving DecidableEq

/-- Metadata mirrors the Go struct in types.go: the version list in registry
order (oldest first) and the yanked-version map, modelled as an association
list looked up with `List.lookup` (a Go `nil` map and an empty map are both
the empty list, which the methods treat identically, as the Go code does). -/
structure Metadata where
  Versions : List String
  YankedVersions : List (String × String)
  Maintainers : List Maintainer
  Homepage : String
  Repository : List String
deriving DecidableEq

/-- Metadata.IsYanked from types.go; the `Option` receiver models the Go
pointer receiver, with `none` standing for a nil receiver. -/
def IsYanked : Option Metadata → String → Bool
  | none, _ => false
  | some md, version => (md.YankedVersions.lookup version).isSome

/-- Metadata.YankReason from types.go: the mapped reason, or the map's zero
value (the empty string) when the version is not a key. -/
def YankReason : Option Metadata → String → String
  | none, _ => ""
  | some md, version => (md.YankedVersions.lookup version).getD ""

/-- The descending scan loop of Metadata.Latest: the Go code walks
`m.Versions` from the last index down and returns the first non-yanked
entry; here the loop runs over the reversed list. -/
def firstNonYanked (md : Metadata) : List String → Option String
  | [] => none
  | v :: rest => if IsYanked (some md) v then firstNonYanked md rest else some v

/-- Metadata.Latest from types.go. -/
def Latest : Option Metadata → String
  | none => ""
  | some md =>
    if md.Versions.isEmpty then ""
    else
      match firstNonYanked md md.Versions.reverse with
      | some v => v
      | none => ""

/-- prereleaseIndicators from types.go. -/
def prereleaseIndicators : List String := ["-rc", "-alpha", "-beta", "-dev", "-pre"]

/-- Substring containment on character lists: true iff the needle occurs
contiguously in the haystack.  This is the meaning of Go strings.Contains. -/
def containsSeq (needle : List Char) : List Char → Bool
  | [] => needle.isEmpty
  | c :: rest => needle.isPrefixOf (c :: rest) || containsSeq needle rest

/-- strings.Contains(s, sub). -/
def strContains (s sub : String) : Bool := containsSeq sub.data s.data

/-- IsPrerelease from types.go: true iff the version contains any of the
fixed indicator substrings. -/
def IsPrerelease (version : String) : Bool :=
  prereleaseIndicators.any fun indicator => strContains version indicator

/-- The first pass of Metadata.LatestStable: skip yanked entries, return the
first non-prerelease entry, otherwise keep scanning. -/
def firstStable (md : Metadata) : List String → Option String
  | [] => none
  | v :: rest =>
    if IsYanked (some md) v then firstStable md rest
    else if ! IsPrerelease v then some v
    else firstStable md rest

/-- Metadata.LatestStable from types.go: pass one looks for a non-yanked
non-prerelease version newest-first; pass two falls back to any non-yanked
version; otherwise the empty string. -/
def LatestStable : Option Metadata → String
  | none => ""
  | some md =>
    if md.Versions.isEmpty then ""
    else
      match firstStable md md.Versions.reverse with
      | some v => v
      | none =>
        match firstNonYanked md md.Versions.reverse with
        | some v => v
        | none => ""

/-- Metadata.HasVersion from types.go: linear scan of the version list. -/
def HasVersion : Option Metadata → String → Bool
  | none, _ => false
  | some md, version => md.Versions.any fun v => v == version

/-- The literal scheme that NewFileRegistryFromURL strips. -/
def fileScheme : String := "file://"

/-- The single path separator that marks a Unix absolute path. -/
def slashOne : String := "/"

/-- The empty version string passed by the Go code where a request carries no
version. -/
def emptyStr : String := ""

/-- Go strings.HasPrefix, on the character lists of the strings (for a valid
UTF-8 prefix, Go's byte-level test agrees with this character-level test). -/
def hasPfx (p s : String) : Bool := p.data.isPrefixOf s.data

/-- Go strings.TrimPrefix: remove the prefix when present, otherwise return
the string unchanged. -/
def trimPfxStr (p s : String) : String :=
  if hasPfx p s then String.mk (s.data.drop p.data.length) else s

/-- isWindowsAbsolutePath from file.go.  The Go code checks the first three
bytes; on the character list this is the same test, because a non-ASCII
leading character fails the letter check in both views and the remaining
two checked characters are ASCII. -/
def isWindowsAbsolutePath (path : String) : Bool :=
  match path.data with
  | a :: b :: c :: _ =>
    (('A' ≤ a && a ≤ 'Z') || ('a' ≤ a && a ≤ 'z'))
      && b == ':' && (c == '\\' || c == '/')
  | _ => false

/-- NewFileRegistryFromURL from file.go, returning the root of the
constructed registry, or `none` for the Go (nil, false) outcome. -/
def NewFileRegistryFromURL (url : String) : Option String :=
  if hasPfx fileScheme url then some (trimPfxStr fileScheme url)
  else if hasPfx slashOne url then some url
  else if isWindowsAbsolutePath url then some url
  else none

/-- One entry yielded by os.ReadDir: a name and whether it is a directory. -/
structure DirEntry where
  name : String
  isDir : Bool
deriving DecidableEq

/-- Outcome of os.ReadDir: a listing, a does-not-exist error, or any other
filesystem fault. -/
inductive ReadDirResult where
  | ok (entries : List DirEntry)
  | notExist
  | ioFault (msg : String)
deriving DecidableEq

/-- The filesystem oracle used by FileRegistry.ListModules: os.ReadDir on a
directory path, and os.Stat existence of a file path. -/
structure FS where
  readDirF : String → ReadDirResult
  statExists : String → Bool

/-- Result of FileRegistry.ListModules: the module names, the sentinel
ErrListingNotSupported, or a wrapped filesystem error. -/
inductive ListModulesResult where
  | ok (modules : List String)
  | listingNotSupported
  | ioFault (msg : String)
deriving DecidableEq

/-- The filepath.Join(root, "modules") directory the listing reads. -/
def modulesDir (root : String) : String := root ++ "/modules"

/-- The filepath.Join(modulesDir, name, "metadata.json") existence probe. -/
def moduleMetaPath (modDir name : String) : String :=
  modDir ++ "/" ++ name ++ "/metadata.json"

/-- FileRegistry.ListModules from file.go: a missing modules directory is
ErrListingNotSupported; otherwise keep exactly the directory entries whose
subdirectory holds a metadata.json. -/
def fileListModules (fs : FS) (root : String) : ListModulesResult :=
  match fs.readDirF (modulesDir root) with
  | .notExist => .listingNotSupported
  | .ioFault m => .ioFault m
  | .ok entries =>
    .ok (entries.filterMap fun e =>
      if e.isDir && fs.statExists (moduleMetaPath (modulesDir root) e.name)
      then some e.name else none)

/-- Error values of the package, as a closed syntax: the ErrNotFound
sentinel, NotFoundError, RequestError (whose Err field may be Go nil, hence
Option), an error built by fmt.Errorf with a wrap verb, and an opaque leaf
error with no Unwrap method (a transport fault or a JSON decoder error). -/
inductive GoError where
  | errNotFound
  | notFoundError (module version : String) (statusCode : Nat)
  | requestError (url : String) (statusCode : Nat) (err : Option GoError)
  | wrapped (msg : String) (err : GoError)
  | plain (msg : String)

/-- isNotFound from the client file, on a non-nil error: the sentinel and
NotFoundError match directly; anything with an Unwrap method is followed
(RequestError.Unwrap returns its possibly-nil Err; a wrap-verb error returns
its wrapped error); plain leaf errors do not match. -/
def isNotFoundE : GoError → Bool
  | .errNotFound => true
  | .notFoundError _ _ _ => true
  | .requestError _ _ none => false
  | .requestError _ _ (some e) => isNotFoundE e
  | .wrapped _ e => isNotFoundE e
  | .plain _ => false

/-- isNotFound from the client file: a nil error never matches. -/
def isNotFound : Option GoError → Bool
  | none => false
  | some e => isNotFoundE e

/-- errors.Is(e, ErrNotFound): walk the chain, matching the sentinel itself
or any error whose Is method accepts the sentinel (NotFoundError.Is does). -/
def errorsIsNotFound : GoError → Bool
  | .errNotFound => true
  | .notFoundError _ _ _ => true
  | .requestError _ _ none => false
  | .requestError _ _ (some e) => errorsIsNotFound e
  | .wrapped _ e => errorsIsNotFound e
  | .plain _ => false

/-- Specification-side reading of "the error is ErrNotFound, a
NotFoundError, or reaches one of these through its Unwrap chain". -/
inductive ReachesNotFound : GoError → Prop where
  | sentinel : ReachesNotFound GoError.errNotFound
  | nfe (m v : String) (s : Nat) : ReachesNotFound (GoError.notFoundError m v s)
  | reqStep (u : String) (sc : Nat) (e : GoError) :
      ReachesNotFound e → ReachesNotFound (GoError.requestError u sc (some e))
  | wrapStep (msg : String) (e : GoError) :
      ReachesNotFound e → ReachesNotFound (GoError.wrapped msg e)

/-- One HTTP exchange as the client sees it: either a response with a status
code and a body, or a transport-level failure before any response. -/
inductive HTTPResult where
  | response (statusCode : Nat) (body : Bytes)
  | failure (msg : String)

/-- One cache entry: the stored bytes and the file's modification time
(seconds; os.Stat exposes exactly existence and this time). -/
structure CacheEntry where
  data : Bytes
  modTime : Nat
deriving DecidableEq

/-- The cache directory contents, keyed by the relative resource path (the
key-to-filepath separator translation is injective and elided). -/
abbrev CacheState := List (String × CacheEntry)

/-- cache.get from the client file: absent entry means not found; with the
freshness check on, an entry older than the time-to-live is also treated as
not found; otherwise the stored bytes are returned. -/
def cacheGet (ttl now : Nat) (cs : CacheState) (key : String)
    (checkTTL : Bool) : Option Bytes :=
  match cs.lookup key with
  | none => none
  | some e => if checkTTL ∧ ttl < now - e.modTime then none else some e.data

/-- cache.set from the client file: write the bytes under the key with the
current time as modification time (the newest entry shadows any older one,
which models the file overwrite). -/
def cacheSet (cs : CacheState) (key : String) (now : Nat)
    (data : Bytes) : CacheState :=
  (key, ⟨data, now⟩) :: cs

/-- Client configuration relevant to the modelled behaviour: whether a cache
directory was configured, and the cache time-to-live. -/
structure ClientCfg where
  hasCache : Bool
  ttl : Nat
deriving DecidableEq

/-- path.Join("modules", module, "metadata.json"). -/
def metadataPath (module : String) : String :=
  "modules/" ++ module ++ "/metadata.json"

/-- path.Join("modules", module, version, "source.json"). -/
def sourcePath (module version : String) : String :=
  "modules/" ++ module ++ "/" ++ version ++ "/source.json"

/-- path.Join("modules", module, version, "MODULE.bazel"). -/
def moduleFilePath (module version : String) : String :=
  "modules/" ++ module ++ "/" ++ version ++ "/MODULE.bazel"

/-- The fixed token standing for the opaque error value the JSON decoder
returns on malformed input. -/
def jsonFault : GoError := GoError.plain "invalid json"

/-- The parse error Client.Metadata builds with fmt.Errorf around the
decoder error. -/
def parseMetadataError (module : String) : GoError :=
  GoError.wrapped ("bcr: failed to parse metadata for " ++ module) jsonFault

/-- The parse error Client.Source builds with fmt.Errorf around the decoder
error. -/
def parseSourceError (module version : String) : GoError :=
  GoError.wrapped
    ("bcr: failed to parse source for " ++ module ++ "@" ++ version) jsonFault

/-- Client.fetch from the client file: transport failure becomes a
RequestError with the underlying fault; status 404 becomes a NotFoundError
carrying module, version and the status; any other non-200 status becomes a
RequestError with the status; 200 yields the body. -/
def clientFetch (httpF : String → HTTPResult) (urlPath module version : String) :
    Except GoError Bytes :=
  match httpF urlPath with
  | .failure msg => .error (.requestError urlPath 0 (some (.plain msg)))
  | .response sc body =>
    if sc == 404 then .error (.notFoundError module version sc)
    else if sc != 200 then .error (.requestError urlPath sc none)
    else .ok body

/-- The fetch-decode-store tail of Client.Metadata: fetch, fail on fetch
error, fail with the parse error on undecodable bytes (leaving the cache
untouched), and only on successful decode write the raw bytes to the cache. -/
def fetchAndParseMetadata (cfg : ClientCfg) (httpF : String → HTTPResult)
    (parseMeta : Bytes → Option Metadata) (now : Nat) (cs : CacheState)
    (module : String) : Except GoError Metadata × CacheState :=
  match clientFetch httpF (metadataPath module) module emptyStr with
  | .error e => (.error e, cs)
  | .ok data =>
    match parseMeta data with
    | none => (.error (parseMetadataError module), cs)
    | some meta =>
      (.ok meta,
        if cfg.hasCache then cacheSet cs (metadataPath module) now data else cs)

/-- Client.Metadata from the client file: consult the cache with the
freshness check enabled; a hit that decodes is returned; otherwise fall
through to the fetch path. -/
def clientMetadata (cfg : ClientCfg) (httpF : String → HTTPResult)
    (parseMeta : Bytes → Option Metadata) (now : Nat) (cs : CacheState)
    (module : String) : Except GoError Metadata × CacheState :=
  match
    (if cfg.hasCache then cacheGet cfg.ttl now cs (metadataPath module) true
     else none) with
  | some data =>
    match parseMeta data with
    | some meta => (.ok meta, cs)
    | none => fetchAndParseMetadata cfg httpF parseMeta now cs module
  | none => fetchAndParseMetadata cfg httpF parseMeta now cs module

/-- The fetch-decode-store tail of Client.Source, with the decoded Source
value abstract (the claims never inspect its fields). -/
def fetchAndParseSource {σ : Type} (cfg : ClientCfg)
    (httpF : String → HTTPResult) (parseSrc : Bytes → Option σ) (now : Nat)
    (cs : CacheState) (module version : String) :
    Except GoError σ × CacheState :=
  match clientFetch httpF (sourcePath module version) module version with
  | .error e => (.error e, cs)
  | .ok data =>
    match parseSrc data with
    | none => (.error (parseSourceError module version), cs)
    | some src =>
      (.ok src,
        if cfg.hasCache then cacheSet cs (sourcePath module version) now data
        else cs)

/-- Client.Source from the client file: consult the cache with the
freshness check disabled. -/
def clientSource {σ : Type} (cfg : ClientCfg) (httpF : String → HTTPResult)
    (parseSrc : Bytes → Option σ) (now : Nat) (cs : CacheState)
    (module version : String) : Except GoError σ × CacheState :=
  match
    (if cfg.hasCache then
       cacheGet cfg.ttl now cs (sourcePath module version) false
     else none) with
  | some data =>
    match parseSrc data with
    | some src => (.ok src, cs)
    | none => fetchAndParseSource cfg httpF parseSrc now cs module version
  | none => fetchAndParseSource cfg httpF parseSrc now cs module version

/-- Client.ModuleFile from the client file: consult the cache with the
freshness check disabled, return a hit as-is, and cache fetched bytes with
no decode step. -/
def clientModuleFile (cfg : ClientCfg) (httpF : String → HTTPResult)
    (now : Nat) (cs : CacheState) (module version : String) :
    Except GoError Bytes × CacheState :=
  match
    (if cfg.hasCache then
       cacheGet cfg.ttl now cs (moduleFilePath module version) false
     else none) with
  | some data => (.ok data, cs)
  | none =>
    match clientFetch httpF (moduleFilePath module version) module version with
    | .error e => (.error e, cs)
    | .ok data =>
      (.ok data,
        if cfg.hasCache then
          cacheSet cs (moduleFilePath module version) now data
        else cs)

/-- Client.Latest from the client file: fetch metadata, then report a
NotFoundError carrying only the module name when Latest() is empty. -/
def clientLatest (cfg : ClientCfg) (httpF : String → HTTPResult)
    (parseMeta : Bytes → Option Metadata) (now : Nat) (cs : CacheState)
    (module : String) : Except GoError String × CacheState :=
  match clientMetadata cfg httpF parseMeta now cs module with
  | (.error e, cs2) => (.error e, cs2)
  | (.ok meta, cs2) =>
    if Latest (some meta) = "" then
      (.error (.notFoundError module emptyStr 0), cs2)
    else (.ok (Latest (some meta)), cs2)

/-- Concrete metadata whose version list contains the empty string. -/
def mEmptyVer : Metadata := ⟨[""], [], [], "", []⟩

/-- Concrete metadata with one stable and one prerelease version, none
yanked. -/
def mW : Metadata := ⟨["1.0.0", "2.0.0-rc1"], [], [], "", []⟩

/-- Concrete metadata whose only version is yanked. -/
def mAllYank : Metadata := ⟨["1.0.0"], [("1.0.0", "broken")], [], "", []⟩

/-- Concrete location string of end-to-end scenario D. -/
def winExample : String := "C:\\path\\to\\registry"

/-- Concrete relative location string of end-to-end scenario D. -/
def relExample : String := "relative/path"

/-- Concrete file-scheme location string. -/
def fileEx : String := "file:///tmp/registry"

/-- Concrete Unix absolute location string. -/
def slashEx : String := "/abs/path"

/-- Concrete registry root for the listing examples. -/
def rootEx : String := "/reg"

/-- Directory entry with a metadata.json beneath it. -/
def entGood : DirEntry := ⟨"good", true⟩

/-- Directory entry without a metadata.json beneath it. -/
def entNoMeta : DirEntry := ⟨"nometa", true⟩

/-- Non-directory entry. -/
def entFile : DirEntry := ⟨"afile", false⟩

/-- Concrete modules-directory listing. -/
def entriesB : List DirEntry := [entGood, entNoMeta, entFile]

/-- The metadata.json path of the valid module under rootEx. -/
def goodMeta : String := moduleMetaPath (modulesDir rootEx) entGood.name

/-- Filesystem with no modules directory at all. -/
def fsA : FS := ⟨fun _ => ReadDirResult.notExist, fun _ => false⟩

/-- Filesystem whose modules directory holds the three concrete entries and
whose only metadata.json is the valid module's. -/
def fsB : FS := ⟨fun _ => ReadDirResult.ok entriesB, fun p => p == goodMeta⟩

/-- Filesystem with an existing but empty modules directory. -/
def fsEmpty : FS := ⟨fun _ => ReadDirResult.ok [], fun _ => false⟩

/-- Concrete client configuration with a cache and a five-second TTL. -/
def cfgEx : ClientCfg := ⟨true, 5⟩

/-- Concrete client configuration with no cache. -/
def cfgN : ClientCfg := ⟨false, 0⟩

/-- Concrete module name. -/
def modEx : String := "mod"

/-- Concrete version string. -/
def verEx : String := "1.0.0"

/-- A cache key no concrete cache state below holds. -/
def keyMiss : String := "modules/absent/metadata.json"

/-- A cache entry written at time 10. -/
def entStale : CacheEntry := ⟨[1, 2], 10⟩

/-- Cache holding the metadata entry for modEx. -/
def csMeta : CacheState := [(metadataPath modEx, entStale)]

/-- Cache holding the source entry for modEx at verEx. -/
def csSrc : CacheState := [(sourcePath modEx verEx, entStale)]

/-- Cache holding the module-file entry for modEx at verEx. -/
def csFile : CacheState := [(moduleFilePath modEx verEx, entStale)]

/-- HTTP oracle answering 200 with a one-byte body. -/
def httpEx : String → HTTPResult := fun _ => HTTPResult.response 200 [7]

/-- HTTP oracle answering 200 with a body the decoders below reject. -/
def httpBad : String → HTTPResult := fun _ => HTTPResult.response 200 [9]

/-- Decoder oracle accepting anything as the two-version metadata. -/
def parseMetaEx : Bytes → Option Metadata := fun _ => some mW

/-- Decoder oracle accepting anything as the all-yanked metadata. -/
def parseYank : Bytes → Option Metadata := fun _ => some mAllYank

/-- Metadata decoder oracle rejecting everything. -/
def parseNoneMeta : Bytes → Option Metadata := fun _ => none

/-- Source decoder oracle (with Nat standing for the decoded source)
returning the first body byte. -/
def parseNatEx : Bytes → Option Nat := fun b => b.head?

/-- Source decoder oracle rejecting everything. -/
def parseNoneNat : Bytes → Option Nat := fun _ => none

/-- The descending scan of Metadata.Latest is List.find? over the reversed
version list. -/
theorem firstNonYanked_eq_find (md : Metadata) (l : List String) :
    firstNonYanked md l = l.find? fun v => ! IsYanked (some md) v := by
  induction l with
  | nil => rfl
  | cons v rest ih =>
    by_cases h : IsYanked (some md) v = true
    · simp [firstNonYanked, List.find?_cons, h, ih]
    · simp [firstNonYanked, List.find?_cons, h, ih]

/-- The first pass of Metadata.LatestStable is List.find? with the combined
non-yanked non-prerelease test. -/
theorem firstStable_eq_find (md : Metadata) (l : List String) :
    firstStable md l
      = l.find? fun v => ! IsYanked (some md) v && ! IsPrerelease v := by
  induction l with
  | nil => rfl
  | cons v rest ih =>
    by_cases hy : IsYanked (some md) v = true
    · simp [firstStable, List.find?_cons, hy, ih]
    · by_cases hp : IsPrerelease v = true
      · simp [firstStable, List.find?_cons, hy, hp, ih]
      · simp [firstStable, List.find?_cons, hy, hp, ih]

/-- List.find? with the constant-true test yields the head. -/
theorem find_true_eq_head (l : List String) :
    (l.find? fun _ => true) = l.head? := by
  cases l <;> rfl

/-- Closed form of Metadata.Latest: the first non-yanked entry of the
reversed version list, defaulting to the empty string. -/
theorem latest_eq_find (m : Metadata) :
    Latest (some m)
      = (m.Versions.reverse.find? fun v => ! IsYanked (some m) v).getD "" := by
  simp only [Latest, firstNonYanked_eq_find]
  by_cases he : m.Versions.isEmpty = true
  · have h0 : m.Versions = [] := List.isEmpty_iff.mp he
    simp [he, h0]
  · simp only [if_neg he]
    cases hf : m.Versions.reverse.find? fun v => ! IsYanked (some m) v <;>
      simp [hf]

/-- Closed form of Metadata.LatestStable: the stable pass, then the
non-yanked pass, then the empty string. -/
theorem latestStable_eq_find (m : Metadata) :
    LatestStable (some m)
      = (match m.Versions.reverse.find?
            (fun v => ! IsYanked (some m) v && ! IsPrerelease v) with
         | some v => v
         | none =>
           (m.Versions.reverse.find? fun v => ! IsYanked (some m) v).getD "") := by
  simp only [LatestStable, firstStable_eq_find, firstNonYanked_eq_find]
  by_cases he : m.Versions.isEmpty = true
  · have h0 : m.Versions = [] := List.isEmpty_iff.mp he
    simp [he, h0]
  · simp only [if_neg he]
    cases hf : m.Versions.reverse.find?
        fun v => ! IsYanked (some m) v && ! IsPrerelease v
    · cases hg : m.Versions.reverse.find? fun v => ! IsYanked (some m) v <;>
        simp [hf, hg]
    · simp [hf]

/-- A version on which the combined stable test succeeds is not a key of
the yanked map. -/
theorem lookup_eq_none_of_notYanked {m : Metadata} {v : String}
    (h : IsYanked (some m) v = false) :
    m.YankedVersions.lookup v = none := by
  cases hl : m.YankedVersions.lookup v with
  | none => rfl
  | some r => simp [IsYanked, hl] at h

/-- C2: Metadata.Latest returns the last (highest-index) element of the
version list that is not a key of the yanked map (the first non-yanked
entry of the reversed list); a non-empty result is a listed, non-yanked
version; with no yanked versions it is the last element of the list; and —
amended — provided the empty string is not itself a listed version, the
result is empty exactly when the list is empty or every listed version is
yanked. -/
theorem c2_latest (m : Metadata) :
    (Latest (some m)
        = (m.Versions.reverse.find? fun v => ! IsYanked (some m) v).getD "")
    ∧ (Latest (some m) ≠ "" →
        Latest (some m) ∈ m.Versions
          ∧ IsYanked (some m) (Latest (some m)) = false)
    ∧ (m.YankedVersions = [] → Latest (some m) = m.Versions.getLast?.getD "")
    ∧ ("" ∉ m.Versions →
        (Latest (some m) = "" ↔
          m.Versions = [] ∨ ∀ v ∈ m.Versions, IsYanked (some m) v = true)) := by
  refine ⟨latest_eq_find m, ?_, ?_, ?_⟩
  · intro hne
    rw [latest_eq_find] at hne ⊢
    cases hf : m.Versions.reverse.find? fun v => ! IsYanked (some m) v with
    | none => rw [hf] at hne; simp at hne
    | some v =>
      have hmem := List.mem_of_find?_eq_some hf
      have hp := List.find?_some hf
      exact ⟨List.mem_reverse.mp hmem, by simpa using hp⟩
  · intro hy
    rw [latest_eq_find]
    have hall : ∀ v, IsYanked (some m) v = false := by
      intro v; simp [IsYanked, hy]
    simp only [hall, Bool.not_false]
    rw [find_true_eq_head, List.head?_reverse]
  · intro hne
    rw [latest_eq_find]
    constructor
    · intro h0
      by_cases hv : m.Versions = []
      · exact Or.inl hv
      · right
        cases hf : m.Versions.reverse.find? fun v => ! IsYanked (some m) v with
        | some v =>
          exfalso
          rw [hf] at h0
          have hv0 : v = "" := h0
          have hmem := List.mem_reverse.mp (List.mem_of_find?_eq_some hf)
          exact hne (hv0 ▸ hmem)
        | none =>
          intro v hvmem
          have := List.find?_eq_none.mp hf v (List.mem_reverse.mpr hvmem)
          simpa using this
    · intro h
      cases h with
      | inl h => simp [h]
      | inr h =>
        have hnone :
            (m.Versions.reverse.find? fun v => ! IsYanked (some m) v) = none := by
          refine List.find?_eq_none.mpr fun x hx => ?_
          simp [h x (List.mem_reverse.mp hx)]
        simp [hnone]

/-- C2 witness: the general theorem applied to a concrete two-version
metadata value with no yanks. -/
theorem c2_latest_witness :
    (Latest (some mW) ∈ mW.Versions
        ∧ IsYanked (some mW) (Latest (some mW)) = false)
      ∧ Latest (some mW) = mW.Versions.getLast?.getD ""
      ∧ (Latest (some mW) = "" ↔
          mW.Versions = [] ∨ ∀ v ∈ mW.Versions, IsYanked (some mW) v = true) := by
  have h := c2_latest mW
  exact ⟨h.2.1 (by decide), h.2.2.1 (by decide), h.2.2.2 (by decide)⟩

/-- C2 counterexample: with the version list holding just the empty string
and nothing yanked, Latest returns the empty string although the list is
non-empty and not every listed version is yanked, refuting the claim's
unrestricted "exactly when" clause. -/
theorem c2_counterexample :
    Latest (some mEmptyVer) = ""
      ∧ mEmptyVer.Versions ≠ []
      ∧ ¬ (∀ v ∈ mEmptyVer.Versions, IsYanked (some mEmptyVer) v = true) := by
  decide

/-- C1: Metadata.LatestStable returns the newest non-yanked non-prerelease
version, else the newest non-yanked version; a non-empty result is never a
key of the yanked map; and — amended — provided the empty string is not
itself a listed version, the result is empty exactly when the list is empty
or every listed version is yanked. -/
theorem c1_latestStable (m : Metadata) :
    (LatestStable (some m)
        = (match m.Versions.reverse.find?
              (fun v => ! IsYanked (some m) v && ! IsPrerelease v) with
           | some v => v
           | none =>
             (m.Versions.reverse.find? fun v => ! IsYanked (some m) v).getD ""))
    ∧ (LatestStable (some m) ≠ "" →
        m.YankedVersions.lookup (LatestStable (some m)) = none)
    ∧ ("" ∉ m.Versions →
        (LatestStable (some m) = "" ↔
          m.Versions = [] ∨ ∀ v ∈ m.Versions, IsYanked (some m) v = true)) := by
  refine ⟨latestStable_eq_find m, ?_, ?_⟩
  · intro hne
    rw [latestStable_eq_find] at hne ⊢
    cases hf : m.Versions.reverse.find?
        (fun v => ! IsYanked (some m) v && ! IsPrerelease v) with
    | some v =>
      have hp := List.find?_some hf
      have hyv : IsYanked (some m) v = false := by
        simp only [Bool.and_eq_true] at hp
        simpa using hp.1
      exact lookup_eq_none_of_notYanked hyv
    | none =>
      cases hg : m.Versions.reverse.find? fun v => ! IsYanked (some m) v with
      | some v =>
        have hp := List.find?_some hg
        exact lookup_eq_none_of_notYanked (by simpa using hp)
      | none =>
        exfalso
        rw [hf, hg] at hne
        simp at hne
  · intro hne
    rw [latestStable_eq_find]
    constructor
    · intro h0
      by_cases hv : m.Versions = []
      · exact Or.inl hv
      · right
        cases hf : m.Versions.reverse.find?
            (fun v => ! IsYanked (some m) v && ! IsPrerelease v) with
        | some v =>
          exfalso
          rw [hf] at h0
          have hv0 : v = "" := h0
          have hmem := List.mem_reverse.mp (List.mem_of_find?_eq_some hf)
          exact hne (hv0 ▸ hmem)
        | none =>
          rw [hf] at h0
          cases hg : m.Versions.reverse.find? fun v => ! IsYanked (some m) v with
          | some v =>
            exfalso
            rw [hg] at h0
            have hv0 : v = "" := h0
            have hmem := List.mem_reverse.mp (List.mem_of_find?_eq_some hg)
            exact hne (hv0 ▸ hmem)
          | none =>
            intro v hvmem
            have := List.find?_eq_none.mp hg v (List.mem_reverse.mpr hvmem)
            simpa using this
    · intro h
      cases h with
      | inl h => simp [h]
      | inr h =>
        have hg :
            (m.Versions.reverse.find? fun v => ! IsYanked (some m) v) = none := by
          refine List.find?_eq_none.mpr fun x hx => ?_
          simp [h x (List.mem_reverse.mp hx)]
        have hf :
            (m.Versions.reverse.find?
              fun v => ! IsYanked (some m) v && ! IsPrerelease v) = none := by
          refine List.find?_eq_none.mpr fun x hx => ?_
          simp [h x (List.mem_reverse.mp hx)]
        simp [hf, hg]

/-- C1 witness: the general theorem applied to a concrete metadata value
whose newest version is a prerelease, so pass one falls back to the older
stable version. -/
theorem c1_latestStable_witness :
    mW.YankedVersions.lookup (LatestStable (some mW)) = none
      ∧ (LatestStable (some mW) = "" ↔
          mW.Versions = []
            ∨ ∀ v ∈ mW.Versions, IsYanked (some mW) v = true) := by
  have h := c1_latestStable mW
  exact ⟨h.2.1 (by decide), h.2.2 (by decide)⟩

/-- C1 counterexample: with the version list holding just the empty string
and nothing yanked, LatestStable returns the empty string although the list
is non-empty and not every listed version is yanked, refuting the claim's
unrestricted "exactly when" clause. -/
theorem c1_counterexample :
    LatestStable (some mEmptyVer) = ""
      ∧ mEmptyVer.Versions ≠ []
      ∧ ¬ (∀ v ∈ mEmptyVer.Versions, IsYanked (some mEmptyVer) v = true) := by
  decide

/-- C8: every query method returns its no-match result on an absent (nil)
Metadata: IsYanked false, YankReason empty, HasVersion false, Latest empty,
LatestStable empty. -/
theorem c8_nil_metadata (version : String) :
    IsYanked none version = false
      ∧ YankReason none version = ""
      ∧ HasVersion none version = false
      ∧ Latest none = ""
      ∧ LatestStable none = "" :=
  ⟨rfl, rfl, rfl, rfl, rfl⟩

/-- Substring containment on character lists agrees with the existence of a
decomposition around the needle. -/
theorem containsSeq_iff (n h : List Char) :
    containsSeq n h = true ↔ ∃ p q : List Char, h = p ++ n ++ q := by
  induction h with
  | nil =>
    constructor
    · intro hc
      have hn : n = [] := by
        simpa [containsSeq, List.isEmpty_iff] using hc
      exact ⟨[], [], by simp [hn]⟩
    · rintro ⟨p, q, hpq⟩
      have h1 := hpq.symm
      rw [List.append_assoc, List.append_eq_nil] at h1
      rw [List.append_eq_nil] at h1
      simp [containsSeq, List.isEmpty_iff, h1.2.1]
  | cons c rest ih =>
    constructor
    · intro hc
      have hsplit : n.isPrefixOf (c :: rest) = true ∨ containsSeq n rest = true := by
        simpa [containsSeq] using hc
      rcases hsplit with hpre | hrest
      · obtain ⟨t, ht⟩ := List.isPrefixOf_iff_prefix.mp hpre
        exact ⟨[], t, by simp [ht]⟩
      · obtain ⟨p, q, hpq⟩ := ih.mp hrest
        exact ⟨c :: p, q, by simp [hpq]⟩
    · rintro ⟨p, q, hpq⟩
      cases p with
      | nil =>
        have hp1 : n <+: c :: rest := ⟨q, by simpa using hpq.symm⟩
        simp [containsSeq, List.isPrefixOf_iff_prefix.mpr hp1]
      | cons a tl =>
        have h1 : rest = tl ++ n ++ q := by
          have := congrArg List.tail hpq
          simpa using this
        simp [containsSeq, ih.mpr ⟨tl, q, h1⟩]

/-- C9: IsPrerelease holds exactly when the version string contains one of
the five fixed indicator substrings, as a plain substring containment test
over the characters. -/
theorem c9_isPrerelease (version : String) :
    IsPrerelease version = true ↔
      ∃ indicator ∈ prereleaseIndicators, ∃ p q : List Char,
        version.data = p ++ indicator.data ++ q := by
  simp only [IsPrerelease, List.any_eq_true, strContains]
  constructor
  · rintro ⟨ind, hmem, hc⟩
    exact ⟨ind, hmem, (containsSeq_iff ind.data version.data).mp hc⟩
  · rintro ⟨ind, hmem, hpq⟩
    exact ⟨ind, hmem, (containsSeq_iff ind.data version.data).mpr hpq⟩

/-- C5: NewFileRegistryFromURL recognizes, in order, a file-scheme string
(root is the string with the scheme removed verbatim), a string starting
with the path separator, and a drive-letter absolute path whose first
character is an ASCII letter of either case, second is a colon and third is
a backslash or forward slash; every other string is classified as not a
file location; and the two scenario-D strings classify as stated. -/
theorem c5_newFileRegistryFromURL :
    (∀ s, hasPfx fileScheme s = true →
      ∃ rest : List Char, NewFileRegistryFromURL s = some (String.mk rest)
        ∧ s.data = fileScheme.data ++ rest)
    ∧ (∀ s, hasPfx fileScheme s = false → hasPfx slashOne s = true →
        NewFileRegistryFromURL s = some s)
    ∧ (∀ s, hasPfx fileScheme s = false → hasPfx slashOne s = false →
        isWindowsAbsolutePath s = true → NewFileRegistryFromURL s = some s)
    ∧ (∀ s, hasPfx fileScheme s = false → hasPfx slashOne s = false →
        isWindowsAbsolutePath s = false → NewFileRegistryFromURL s = none)
    ∧ (∀ s, isWindowsAbsolutePath s = true ↔
        ∃ a sep rest, s.data = a :: ':' :: sep :: rest
          ∧ (('A' ≤ a ∧ a ≤ 'Z') ∨ ('a' ≤ a ∧ a ≤ 'z'))
          ∧ (sep = '\\' ∨ sep = '/'))
    ∧ NewFileRegistryFromURL winExample = some winExample
    ∧ NewFileRegistryFromURL relExample = none := by
  refine ⟨?_, ?_, ?_, ?_, ?_, by decide, by decide⟩
  · intro s h
    obtain ⟨t, ht⟩ := List.isPrefixOf_iff_prefix.mp h
    refine ⟨t, ?_, ht.symm⟩
    simp only [NewFileRegistryFromURL, h, if_true, trimPfxStr]
    rw [← ht, List.drop_left]
  · intro s h1 h2
    simp [NewFileRegistryFromURL, h1, h2]
  · intro s h1 h2 h3
    simp [NewFileRegistryFromURL, h1, h2, h3]
  · intro s h1 h2 h3
    simp [NewFileRegistryFromURL, h1, h2, h3]
  · intro s
    constructor
    · intro h
      unfold isWindowsAbsolutePath at h
      rcases hsd : s.data with _ | ⟨a, _ | ⟨b, _ | ⟨c, t⟩⟩⟩ <;> rw [hsd] at h
      · simp at h
      · simp at h
      · simp at h
      · simp only [Bool.and_eq_true, Bool.or_eq_true, beq_iff_eq,
          decide_eq_true_eq] at h
        obtain ⟨⟨hletter, hb⟩, hc⟩ := h
        subst hb
        exact ⟨a, c, t, rfl, hletter, hc⟩
    · rintro ⟨a, sep, rest, hsd, hletter, hsep⟩
      unfold isWindowsAbsolutePath
      rw [hsd]
      rcases hletter with ⟨h1, h2⟩ | ⟨h1, h2⟩ <;> rcases hsep with h3 | h3 <;>
        subst h3 <;> simp [h1, h2]

/-- C5 witness: the general theorem at the concrete scheme, Unix, Windows
and relative location strings, hypotheses discharged by evaluation. -/
theorem c5_witness :
    (∃ rest : List Char, NewFileRegistryFromURL fileEx = some (String.mk rest)
        ∧ fileEx.data = fileScheme.data ++ rest)
      ∧ NewFileRegistryFromURL slashEx = some slashEx
      ∧ NewFileRegistryFromURL winExample = some winExample
      ∧ NewFileRegistryFromURL relExample = none := by
  have h := c5_newFileRegistryFromURL
  exact ⟨h.1 fileEx (by decide), h.2.1 slashEx (by decide) (by decide),
    h.2.2.1 winExample (by decide) (by decide) (by decide),
    h.2.2.2.1 relExample (by decide) (by decide) (by decide)⟩

/-- C6: FileRegistry.ListModules yields the listing-not-supported sentinel
exactly in the missing-directory case; an existing modules directory yields
precisely the names of its directory entries possessing a metadata.json
(membership characterized), and an existing empty directory yields the
empty list. -/
theorem c6_listModules (fs : FS) (root : String) :
    (fs.readDirF (modulesDir root) = ReadDirResult.notExist →
      fileListModules fs root = ListModulesResult.listingNotSupported)
    ∧ (∀ entries, fs.readDirF (modulesDir root) = ReadDirResult.ok entries →
        fileListModules fs root
            = ListModulesResult.ok (entries.filterMap fun e =>
                if e.isDir
                    && fs.statExists (moduleMetaPath (modulesDir root) e.name)
                then some e.name else none)
          ∧ ∀ name, (name ∈ entries.filterMap fun e =>
                if e.isDir
                    && fs.statExists (moduleMetaPath (modulesDir root) e.name)
                then some e.name else none) ↔
              ∃ e ∈ entries, e.name = name ∧ e.isDir = true
                ∧ fs.statExists (moduleMetaPath (modulesDir root) e.name) = true)
    ∧ (fs.readDirF (modulesDir root) = ReadDirResult.ok [] →
        fileListModules fs root = ListModulesResult.ok []) := by
  refine ⟨?_, ?_, ?_⟩
  · intro h
    simp [fileListModules, h]
  · intro entries h
    refine ⟨by simp [fileListModules, h], ?_⟩
    intro name
    rw [List.mem_filterMap]
    constructor
    · rintro ⟨e, hmem, hfe⟩
      by_cases hd : e.isDir = true
      · by_cases hs :
            fs.statExists (moduleMetaPath (modulesDir root) e.name) = true
        · have hname : e.name = name := by simpa [hd, hs] using hfe
          exact ⟨e, hmem, hname, hd, hs⟩
        · simp [hd, hs] at hfe
      · simp [hd] at hfe
    · rintro ⟨e, hmem, hname, hdir, hstat⟩
      refine ⟨e, hmem, ?_⟩
      rw [hdir, hstat]
      simpa using hname
  · intro h
    simp [fileListModules, h]

/-- C6 witness: the general theorem at three concrete filesystems — missing
modules directory, a mixed listing where only one entry has metadata.json,
and an empty directory. -/
theorem c6_witness :
    fileListModules fsA rootEx = ListModulesResult.listingNotSupported
      ∧ fileListModules fsB rootEx = ListModulesResult.ok [entGood.name]
      ∧ fileListModules fsEmpty rootEx = ListModulesResult.ok [] := by
  have hA := (c6_listModules fsA rootEx).1 rfl
  have hB := ((c6_listModules fsB rootEx).2.1 entriesB rfl).1
  have hE := (c6_listModules fsEmpty rootEx).2.2 rfl
  refine ⟨hA, ?_, hE⟩
  rw [hB]
  decide

/-- The executable not-found predicate agrees with the declarative
reachability of a not-found error through the Unwrap chain. -/
theorem isNotFoundE_iff_reaches :
    ∀ e : GoError, isNotFoundE e = true ↔ ReachesNotFound e
  | .errNotFound => ⟨fun _ => .sentinel, fun _ => rfl⟩
  | .notFoundError m v s => ⟨fun _ => .nfe m v s, fun _ => rfl⟩
  | .requestError _ _ none =>
      ⟨fun h => by simp [isNotFoundE] at h, fun h => by cases h⟩
  | .requestError u sc (some e) =>
      ⟨fun h => .reqStep u sc e
          ((isNotFoundE_iff_reaches e).mp (by simpa [isNotFoundE] using h)),
       fun h => by
         cases h with
         | reqStep _ _ _ hr =>
           simpa [isNotFoundE] using (isNotFoundE_iff_reaches e).mpr hr⟩
  | .wrapped msg e =>
      ⟨fun h => .wrapStep msg e
          ((isNotFoundE_iff_reaches e).mp (by simpa [isNotFoundE] using h)),
       fun h => by
         cases h with
         | wrapStep _ _ hr =>
           simpa [isNotFoundE] using (isNotFoundE_iff_reaches e).mpr hr⟩
  | .plain _ => ⟨fun h => by simp [isNotFoundE] at h, fun h => by cases h⟩

/-- C7: isNotFound holds exactly on the sentinel, on NotFoundError, and on
errors whose Unwrap chain reaches one of these; every NotFoundError matches
errors.Is against the sentinel; a wrapped NotFoundError still matches the
predicate; request errors over plain transport faults and both parse errors
do not; and a nil error never matches. -/
theorem c7_isNotFound :
    (∀ e : GoError, isNotFoundE e = true ↔ ReachesNotFound e)
      ∧ (∀ m v s, errorsIsNotFound (GoError.notFoundError m v s) = true)
      ∧ (∀ msg m v s,
          isNotFoundE (GoError.wrapped msg (GoError.notFoundError m v s)) = true)
      ∧ (∀ u sc msg,
          isNotFoundE (GoError.requestError u sc (some (GoError.plain msg)))
            = false)
      ∧ (∀ module, isNotFoundE (parseMetadataError module) = false)
      ∧ (∀ module version,
          isNotFoundE (parseSourceError module version) = false)
      ∧ isNotFound none = false :=
  ⟨isNotFoundE_iff_reaches, fun _ _ _ => rfl, fun _ _ _ _ => rfl,
   fun _ _ _ => rfl, fun _ => rfl, fun _ _ => rfl, rfl⟩

/-- C3: cache.get is not-found on an absent entry; with the freshness check
on it is also not-found on an entry older than the time-to-live, and found
on a fresh one; with the check off the stored bytes come back at any age;
Client.Metadata passes the freshness check (a stale entry sends it to the
fetch path), while Client.Source and Client.ModuleFile do not (an
arbitrarily old cached entry is served). -/
theorem c3_cache_freshness :
    (∀ (ttl now : Nat) (cs : CacheState) (key : String) (b : Bool),
        cs.lookup key = none → cacheGet ttl now cs key b = none)
    ∧ (∀ (ttl now : Nat) (cs : CacheState) (key : String) (e : CacheEntry),
        cs.lookup key = some e → ttl < now - e.modTime →
        cacheGet ttl now cs key true = none)
    ∧ (∀ (ttl now : Nat) (cs : CacheState) (key : String) (e : CacheEntry),
        cs.lookup key = some e → ¬ ttl < now - e.modTime →
        cacheGet ttl now cs key true = some e.data)
    ∧ (∀ (ttl now : Nat) (cs : CacheState) (key : String) (e : CacheEntry),
        cs.lookup key = some e →
        cacheGet ttl now cs key false = some e.data)
    ∧ (∀ (cfg : ClientCfg) (httpF : String → HTTPResult)
        (parseMeta : Bytes → Option Metadata) (now : Nat) (cs : CacheState)
        (module : String) (e : CacheEntry), cfg.hasCache = true →
        cs.lookup (metadataPath module) = some e →
        cfg.ttl < now - e.modTime →
        clientMetadata cfg httpF parseMeta now cs module
          = fetchAndParseMetadata cfg httpF parseMeta now cs module)
    ∧ (∀ (σ : Type) (cfg : ClientCfg) (httpF : String → HTTPResult)
        (parseSrc : Bytes → Option σ) (now : Nat) (cs : CacheState)
        (module version : String) (e : CacheEntry) (src : σ),
        cfg.hasCache = true →
        cs.lookup (sourcePath module version) = some e →
        parseSrc e.data = some src →
        clientSource cfg httpF parseSrc now cs module version
          = (Except.ok src, cs))
    ∧ (∀ (cfg : ClientCfg) (httpF : String → HTTPResult) (now : Nat)
        (cs : CacheState) (module version : String) (e : CacheEntry),
        cfg.hasCache = true →
        cs.lookup (moduleFilePath module version) = some e →
        clientModuleFile cfg httpF now cs module version
          = (Except.ok e.data, cs)) := by
  refine ⟨?_, ?_, ?_, ?_, ?_, ?_, ?_⟩
  · intro ttl now cs key b h
    simp [cacheGet, h]
  · intro ttl now cs key e h hstale
    simp [cacheGet, h, hstale]
  · intro ttl now cs key e h hfresh
    simp [cacheGet, h, hfresh]
  · intro ttl now cs key e h
    simp [cacheGet, h]
  · intro cfg httpF parseMeta now cs module e hc hlook hstale
    have hnone : cacheGet cfg.ttl now cs (metadataPath module) true = none := by
      simp [cacheGet, hlook, hstale]
    simp [clientMetadata, hc, hnone]
  · intro σ cfg httpF parseSrc now cs module version e src hc hlook hparse
    have hget :
        cacheGet cfg.ttl now cs (sourcePath module version) false
          = some e.data := by
      simp [cacheGet, hlook]
    simp [clientSource, hc, hget, hparse]
  · intro cfg httpF now cs module version e hc hlook
    have hget :
        cacheGet cfg.ttl now cs (moduleFilePath module version) false
          = some e.data := by
      simp [cacheGet, hlook]
    simp [clientModuleFile, hc, hget]

/-- C3 witness: the general theorem at a concrete cache written at time 10
with a five-second time-to-live, read at times 20 (stale) and 16 (fresh). -/
theorem c3_witness :
    cacheGet 5 20 csMeta keyMiss true = none
      ∧ cacheGet 5 20 csMeta (metadataPath modEx) true = none
      ∧ cacheGet 5 14 csMeta (metadataPath modEx) true = some entStale.data
      ∧ cacheGet 5 20 csMeta (metadataPath modEx) false = some entStale.data
      ∧ clientMetadata cfgEx httpEx parseMetaEx 20 csMeta modEx
          = fetchAndParseMetadata cfgEx httpEx parseMetaEx 20 csMeta modEx
      ∧ clientSource cfgEx httpEx parseNatEx 20 csSrc modEx verEx
          = (Except.ok 1, csSrc)
      ∧ clientModuleFile cfgEx httpEx 20 csFile modEx verEx
          = (Except.ok entStale.data, csFile) := by
  have h := c3_cache_freshness
  exact ⟨h.1 5 20 csMeta keyMiss true (by decide),
    h.2.1 5 20 csMeta (metadataPath modEx) entStale (by decide) (by decide),
    h.2.2.1 5 14 csMeta (metadataPath modEx) entStale (by decide) (by decide),
    h.2.2.2.1 5 20 csMeta (metadataPath modEx) entStale (by decide),
    h.2.2.2.2.1 cfgEx httpEx parseMetaEx 20 csMeta modEx entStale rfl
      (by decide) (by decide),
    h.2.2.2.2.2.1 Nat cfgEx httpEx parseNatEx 20 csSrc modEx verEx entStale 1
      rfl (by decide) rfl,
    h.2.2.2.2.2.2 cfgEx httpEx 20 csFile modEx verEx entStale rfl (by decide)⟩

/-- The fetch tail of Client.Metadata changes the cache only when it
returns a successfully decoded value. -/
theorem fetchAndParseMetadata_write_ok (cfg : ClientCfg)
    (httpF : String → HTTPResult) (parseMeta : Bytes → Option Metadata)
    (now : Nat) (cs : CacheState) (module : String) :
    (fetchAndParseMetadata cfg httpF parseMeta now cs module).2 ≠ cs →
    ∃ meta,
      (fetchAndParseMetadata cfg httpF parseMeta now cs module).1
        = Except.ok meta := by
  cases hf : clientFetch httpF (metadataPath module) module emptyStr with
  | error e =>
    intro hne
    simp [fetchAndParseMetadata, hf] at hne
  | ok data =>
    cases hp : parseMeta data with
    | none =>
      intro hne
      simp [fetchAndParseMetadata, hf, hp] at hne
    | some meta =>
      intro _
      exact ⟨meta, by simp [fetchAndParseMetadata, hf, hp]⟩

/-- The fetch tail of Client.Source changes the cache only when it returns
a successfully decoded value. -/
theorem fetchAndParseSource_write_ok {σ : Type} (cfg : ClientCfg)
    (httpF : String → HTTPResult) (parseSrc : Bytes → Option σ) (now : Nat)
    (cs : CacheState) (module version : String) :
    (fetchAndParseSource cfg httpF parseSrc now cs module version).2 ≠ cs →
    ∃ src,
      (fetchAndParseSource cfg httpF parseSrc now cs module version).1
        = Except.ok src := by
  cases hf : clientFetch httpF (sourcePath module version) module version with
  | error e =>
    intro hne
    simp [fetchAndParseSource, hf] at hne
  | ok data =>
    cases hp : parseSrc data with
    | none =>
      intro hne
      simp [fetchAndParseSource, hf, hp] at hne
    | some src =>
      intro _
      exact ⟨src, by simp [fetchAndParseSource, hf, hp]⟩

/-- C4: when the fetched metadata or source bytes fail to decode, the call
returns the dedicated parse error — which the not-found predicate rejects
and which is no RequestError — and leaves the cache exactly as it was; and
in full generality each call modifies the cache only when it returns a
successfully decoded value. -/
theorem c4_parse_gates_cache :
    (∀ (cfg : ClientCfg) (httpF : String → HTTPResult)
        (parseMeta : Bytes → Option Metadata) (now : Nat) (cs : CacheState)
        (module : String) (d : Bytes),
        cs.lookup (metadataPath module) = none →
        httpF (metadataPath module) = HTTPResult.response 200 d →
        parseMeta d = none →
        clientMetadata cfg httpF parseMeta now cs module
          = (Except.error (parseMetadataError module), cs))
    ∧ (∀ module, isNotFoundE (parseMetadataError module) = false)
    ∧ (∀ module u sc oe,
        parseMetadataError module ≠ GoError.requestError u sc oe)
    ∧ (∀ (cfg : ClientCfg) (httpF : String → HTTPResult)
        (parseMeta : Bytes → Option Metadata) (now : Nat) (cs : CacheState)
        (module : String),
        (clientMetadata cfg httpF parseMeta now cs module).2 ≠ cs →
        ∃ meta,
          (clientMetadata cfg httpF parseMeta now cs module).1
            = Except.ok meta)
    ∧ (∀ (σ : Type) (cfg : ClientCfg) (httpF : String → HTTPResult)
        (parseSrc : Bytes → Option σ) (now : Nat) (cs : CacheState)
        (module version : String) (d : Bytes),
        cs.lookup (sourcePath module version) = none →
        httpF (sourcePath module version) = HTTPResult.response 200 d →
        parseSrc d = none →
        clientSource cfg httpF parseSrc now cs module version
          = (Except.error (parseSourceError module version), cs))
    ∧ (∀ module version,
        isNotFoundE (parseSourceError module version) = false)
    ∧ (∀ module version u sc oe,
        parseSourceError module version ≠ GoError.requestError u sc oe)
    ∧ (∀ (σ : Type) (cfg : ClientCfg) (httpF : String → HTTPResult)
        (parseSrc : Bytes → Option σ) (now : Nat) (cs : CacheState)
        (module version : String),
        (clientSource cfg httpF parseSrc now cs module version).2 ≠ cs →
        ∃ src,
          (clientSource cfg httpF parseSrc now cs module version).1
            = Except.ok src) := by
  refine ⟨?_, fun _ => rfl, ?_, ?_, ?_, fun _ _ => rfl, ?_, ?_⟩
  · intro cfg httpF parseMeta now cs module d hlook hhttp hparse
    have hget :
        (if cfg.hasCache then
           cacheGet cfg.ttl now cs (metadataPath module) true
         else none) = none := by
      cases hcc : cfg.hasCache <;> simp [cacheGet, hlook]
    simp [clientMetadata, hget, fetchAndParseMetadata, clientFetch, hhttp,
      hparse]
  · intro module u sc oe h
    cases h
  · intro cfg httpF parseMeta now cs module
    cases hc :
        (if cfg.hasCache then
           cacheGet cfg.ttl now cs (metadataPath module) true
         else none) with
    | some data =>
      cases hp : parseMeta data with
      | some meta =>
        intro _
        exact ⟨meta, by simp [clientMetadata, hc, hp]⟩
      | none =>
        intro hne
        have hne2 :
            (fetchAndParseMetadata cfg httpF parseMeta now cs module).2 ≠ cs := by
          simpa [clientMetadata, hc, hp] using hne
        obtain ⟨meta, hm⟩ :=
          fetchAndParseMetadata_write_ok cfg httpF parseMeta now cs module hne2
        exact ⟨meta, by simp [clientMetadata, hc, hp, hm]⟩
    | none =>
      intro hne
      have hne2 :
          (fetchAndParseMetadata cfg httpF parseMeta now cs module).2 ≠ cs := by
        simpa [clientMetadata, hc] using hne
      obtain ⟨meta, hm⟩ :=
        fetchAndParseMetadata_write_ok cfg httpF parseMeta now cs module hne2
      exact ⟨meta, by simp [clientMetadata, hc, hm]⟩
  · intro σ cfg httpF parseSrc now cs module version d hlook hhttp hparse
    have hget :
        (if cfg.hasCache then
           cacheGet cfg.ttl now cs (sourcePath module version) false
         else none) = none := by
      cases hcc : cfg.hasCache <;> simp [cacheGet, hlook]
    simp [clientSource, hget, fetchAndParseSource, clientFetch, hhttp, hparse]
  · intro module version u sc oe h
    cases h
  · intro σ cfg httpF parseSrc now cs module version
    cases hc :
        (if cfg.hasCache then
           cacheGet cfg.ttl now cs (sourcePath module version) false
         else none) with
    | some data =>
      cases hp : parseSrc data with
      | some src =>
        intro _
        exact ⟨src, by simp [clientSource, hc, hp]⟩
      | none =>
        intro hne
        have hne2 :
            (fetchAndParseSource cfg httpF parseSrc now cs module version).2
              ≠ cs := by
          simpa [clientSource, hc, hp] using hne
        obtain ⟨src, hm⟩ :=
          fetchAndParseSource_write_ok cfg httpF parseSrc now cs module
            version hne2
        exact ⟨src, by simp [clientSource, hc, hp, hm]⟩
    | none =>
      intro hne
      have hne2 :
          (fetchAndParseSource cfg httpF parseSrc now cs module version).2
            ≠ cs := by
        simpa [clientSource, hc] using hne
      obtain ⟨src, hm⟩ :=
        fetchAndParseSource_write_ok cfg httpF parseSrc now cs module version
          hne2
      exact ⟨src, by simp [clientSource, hc, hm]⟩

/-- C4 witness: the general theorem at a rejecting decoder (parse error,
cache untouched) and at an accepting decoder (cache written, result ok). -/
theorem c4_witness :
    clientMetadata cfgEx httpBad parseNoneMeta 20 [] modEx
        = (Except.error (parseMetadataError modEx), ([] : CacheState))
      ∧ (∃ meta,
          (clientMetadata cfgEx httpEx parseMetaEx 20 [] modEx).1
            = Except.ok meta)
      ∧ clientSource cfgEx httpBad parseNoneNat 20 [] modEx verEx
          = (Except.error (parseSourceError modEx verEx), ([] : CacheState))
      ∧ (∃ src,
          (clientSource cfgEx httpEx parseNatEx 20 [] modEx verEx).1
            = Except.ok src) := by
  have h := c4_parse_gates_cache
  exact ⟨h.1 cfgEx httpBad parseNoneMeta 20 [] modEx [9] rfl rfl rfl,
    h.2.2.2.1 cfgEx httpEx parseMetaEx 20 [] modEx (by decide),
    h.2.2.2.2.1 Nat cfgEx httpBad parseNoneNat 20 [] modEx verEx [9] rfl rfl
      rfl,
    h.2.2.2.2.2.2.2 Nat cfgEx httpEx parseNatEx 20 [] modEx verEx (by decide)⟩

/-- C10: when metadata is fetched successfully but its Latest() is empty,
Client.Latest returns a NotFoundError carrying the module name, the empty
version and status zero, and the not-found predicate accepts that error. -/
theorem c10_clientLatest (cfg : ClientCfg) (httpF : String → HTTPResult)
    (parseMeta : Bytes → Option Metadata) (now : Nat) (cs : CacheState)
    (module : String) (meta : Metadata) (cs2 : CacheState) :
    clientMetadata cfg httpF parseMeta now cs module = (Except.ok meta, cs2) →
    Latest (some meta) = "" →
    clientLatest cfg httpF parseMeta now cs module
        = (Except.error (GoError.notFoundError module emptyStr 0), cs2)
      ∧ isNotFoundE (GoError.notFoundError module emptyStr 0) = true
      ∧ emptyStr = "" := by
  intro hm hl
  refine ⟨?_, rfl, rfl⟩
  simp [clientLatest, hm, hl]

/-- C10 witness: a concrete module whose only version is yanked, so
Latest() is empty even though the metadata fetch succeeds. -/
theorem c10_witness :
    clientLatest cfgN httpEx parseYank 0 [] modEx
        = (Except.error (GoError.notFoundError modEx emptyStr 0),
           ([] : CacheState))
      ∧ isNotFoundE (GoError.notFoundError modEx emptyStr 0) = true := by
  have h := c10_clientLatest cfgN httpEx parseYank 0 [] modEx mAllYank []
    rfl (by decide)
  exact ⟨h.1, h.2.1⟩

end BCR
